import Mathlib

/-!
Verification of the time-series read path of graphite-web
(src/webapp/graphite/readers.py) against its natural-language
specification.

Conventions of the shallow embedding:
* timestamps and step sizes are `Int` (Python 2 machine ints);
* sample values are `ℚ` (`Value`), a slot being `Option Value` with
  `none` for "missing" (Python `None`);
* Python 2 floor division `/` on ints is `Int.fdiv`, and `%` is
  `Int.fmod` (both follow the divisor's sign, exactly as Python does);
* code that can raise returns `Except`.
-/

namespace GraphiteReaders

/-- Sample values; Python floats are modelled as rationals. -/
abbrev Value := ℚ

/-- The `(start, end, step)` triple the readers call `time_info`. -/
abbrev TimeInfo := Int × Int × Int

/-- One fetched series: its window and its slot values. -/
abbrev SeriesResult := TimeInfo × List (Option Value)

/-- Embedding of the inner function `consolidate(func, values)` of
`merge_with_cache` (readers.py lines 297-305): drop `None` values,
return `None` when nothing usable is left, then reduce under the
named aggregation; an unknown name raises. Python's `sum` is a left
fold starting from 0, `max`/`min` fold over the non-empty list. -/
def consolidate (func : String) (values : List (Option Value)) :
    Except String (Option Value) :=
  match values.filterMap id with
  | [] => .ok none
  | v :: vs =>
    if func = "sum" then .ok (some ((v :: vs).foldl (· + ·) 0))
    else if func = "average" then
      .ok (some (((v :: vs).foldl (· + ·) 0) / (((v :: vs).length : Nat) : Value)))
    else if func = "max" then .ok (some (vs.foldl max v))
    else if func = "min" then .ok (some (vs.foldl min v))
    else .error ("Invalid consolidation function: " ++ func)

/-- The slot timestamp a cache point is grouped under in
`merge_with_cache`: `interval = timestamp - (timestamp % step)`
(readers.py line 310). -/
def alignedSlot (step timestamp : Int) : Int :=
  timestamp - Int.fmod timestamp step

/-- One step of building `consolidated_dict` (readers.py lines 310-314):
append the point's value to the entry for its interval, or open a new
entry. Modelled as an association list in first-insertion order. -/
def addPoint (d : List (Int × List (Option Value))) (interval : Int)
    (v : Option Value) : List (Int × List (Option Value)) :=
  match d with
  | [] => [(interval, [v])]
  | (k, vs) :: rest =>
    if k = interval then (k, vs ++ [v]) :: rest
    else (k, vs) :: addPoint rest interval v

/-- The grouping loop of `merge_with_cache` (readers.py lines 309-314).
Python 2 iterates the dict in an unspecified order; we fix
first-insertion order for the keys, which does not affect the fused
series because distinct aligned intervals land in distinct slots. -/
def groupPoints (step : Int) (pts : List (Int × Option Value)) :
    List (Int × List (Option Value)) :=
  pts.foldl (fun d p => addPoint d (alignedSlot step p.1) p.2) []

/-- One iteration of the application loop of `merge_with_cache`
(readers.py lines 322-334): `i = int(interval - start) / step`, written
out at each use site below; a negative index is skipped by the explicit
`continue`; an index at or past the end raises `IndexError`, swallowed
by the bare `except: pass`; with `step = 0` the division raises
`ZeroDivisionError`, also swallowed by that same `except`. -/
def cacheWriteStep (start step : Int) (vs : List (Option Value))
    (p : Int × Option Value) : List (Option Value) :=
  if step = 0 then vs
  else if (p.1 - start).fdiv step < 0 then vs
  else if (p.1 - start).fdiv step < (vs.length : Int) then
    vs.set ((p.1 - start).fdiv step).toNat p.2
  else vs

/-- The application loop of `merge_with_cache` (readers.py lines
322-334), one `cacheWriteStep` per consolidated point, in order. -/
def applyCachedValues (start step : Int) (values : List (Option Value))
    (consolidated : List (Int × Option Value)) : List (Option Value) :=
  consolidated.foldl (cacheWriteStep start step) values

/-- Embedding of `merge_with_cache(cached_datapoints, start, step, values,
func)` (readers.py lines 292-336). With a consolidation function the
points are first grouped by aligned interval and consolidated per group
(the grouping line `timestamp % step` is outside any `try`, so `step = 0`
with at least one point raises); without one the raw points are applied
directly. -/
def merge_with_cache (cached_datapoints : List (Int × Option Value))
    (start step : Int) (values : List (Option Value)) (func : Option String) :
    Except String (List (Option Value)) := do
  let consolidated ← match func with
    | some f =>
      if cached_datapoints ≠ [] ∧ step = 0 then
        Except.error "ZeroDivisionError"
      else
        (groupPoints step cached_datapoints).mapM
          (fun g => do
            let v ← consolidate f g.2
            Except.ok (g.1, v))
    | none => Except.ok cached_datapoints
  Except.ok (applyCachedValues start step values consolidated)

/-- Embedding of `CeresReader.fetch` (readers.py lines 143-159) after its
external collaborators are made explicit: `data` is what
`ceres_node.read` returned, `cacheQuery` the outcome of
`CarbonLink.query` (an exception there is logged and degraded to an
empty point list). Ceres passes no consolidation function. -/
def ceresReaderFetch (data : SeriesResult)
    (cacheQuery : Except Unit (List (Int × Option Value))) :
    Except String SeriesResult :=
  match data with
  | ((s, e, step), values) => do
    let cached := match cacheQuery with
      | .ok pts => pts
      | .error _ => []
    let merged ← merge_with_cache cached s step values none
    Except.ok ((s, e, step), merged)

/-- Embedding of `WhisperReader.fetch` (readers.py lines 182-199):
`data` is what `whisper.fetch` returned (`none` models Python's falsy
no-data result), `cacheQuery` the outcome of `CarbonLink.query`
(an exception there is logged and degraded to an empty point list),
and the archive's aggregation method is passed to `merge_with_cache`. -/
def whisperReaderFetch (data : Option SeriesResult)
    (aggregationMethod : String)
    (cacheQuery : Except Unit (List (Int × Option Value))) :
    Except String (Option SeriesResult) :=
  match data with
  | none => Except.ok none
  | some ((s, e, step), values) => do
    let cached := match cacheQuery with
      | .ok pts => pts
      | .error _ => []
    let merged ← merge_with_cache cached s step values (some aggregationMethod)
    Except.ok (some ((s, e, step), merged))

/-- Python list indexing `xs[i]` as used in `MultiReader.merge`: a
negative index first wraps around to `len(xs) + i`; the (possibly
adjusted) index then reads the list when in range and raises
`IndexError` otherwise. -/
def pyGet (xs : List (Option Value)) (i : Int) : Except Unit (Option Value) :=
  if i < 0 then
    if h : 0 ≤ (xs.length : Int) + i ∧ (xs.length : Int) + i < (xs.length : Int) then
      .ok (xs.get ⟨((xs.length : Int) + i).toNat, by omega⟩)
    else .error ()
  else
    if h : 0 ≤ i ∧ i < (xs.length : Int) then
      .ok (xs.get ⟨i.toNat, by omega⟩)
    else .error ()

/-- The body of one iteration of the merge loop in `MultiReader.merge`
(readers.py lines 96-115): try the finer series at
`i1 = (t - start1) / step1` when `len(values1) > i1`, fall back to the
coarser series at `i2 = (t - start2) / step2` when that value is
`None`. -/
def mergeSlot (start1 step1 : Int) (values1 : List (Option Value))
    (start2 step2 : Int) (values2 : List (Option Value)) (t : Int) :
    Except Unit (Option Value) :=
  Except.bind
    (if (values1.length : Int) > (t - start1).fdiv step1 then
      pyGet values1 ((t - start1).fdiv step1)
    else Except.ok none)
    (fun v1 =>
      match v1 with
      | some v => Except.ok (some v)
      | none =>
        Except.bind
          (if (values2.length : Int) > (t - start2).fdiv step2 then
            pyGet values2 ((t - start2).fdiv step2)
          else Except.ok none)
          (fun v2 => Except.ok v2))

/-- Number of iterations of `t = start; while t < end: ...; t += step`
for a positive step: the count of slots `start, start+step, ...` below
`e`, i.e. `max 0 (ceil((e - start) / step))`. -/
def numSlots (start e step : Int) : Nat :=
  ((e - start + step - 1).ediv step).toNat

/-- The merge loop of `MultiReader.merge`, with its iteration count made
explicit as fuel: `mergeLoop slot step (numSlots start e step) start`
runs the Python `while t < end` loop exactly when `step > 0` (with a
non-positive step the Python loop would never terminate). -/
def mergeLoop (slot : Int → Except Unit (Option Value)) (step : Int) :
    Nat → Int → Except Unit (List (Option Value))
  | 0, _ => Except.ok []
  | n + 1, t => do
    let v ← slot t
    let rest ← mergeLoop slot step n (t + step)
    Except.ok (v :: rest)

/-- Embedding of `MultiReader.merge(results1, results2)` (readers.py
lines 79-117): swap so that the first result has the strictly smaller
step (`if results1[0][2] > results2[0][2]`), take the earliest start,
latest end and finest step, and fill each slot via `mergeSlot`. -/
def merge (results1 results2 : SeriesResult) : Except Unit SeriesResult :=
  let p := if results2.1.2.2 < results1.1.2.2 then (results2, results1)
           else (results1, results2)
  match p with
  | (((start1, end1, step1), values1), ((start2, end2, step2), values2)) =>
    let step := step1
    let start := min start1 start2
    let e := max end1 end2
    do
      let values ← mergeLoop (mergeSlot start1 step1 values1 start2 step2 values2)
          step (numSlots start e step) start
      Except.ok ((start, e, step), values)

/-- What one node's `fetch` handed back to `MultiReader.fetch`: either a
plain result (possibly `none`, i.e. no data) or a `FetchInProgress`
whose `waitForResults` later returns a result or raises. -/
inductive FetchOutcome where
  | direct (result : Option SeriesResult)
  | inProgress (awaited : Except Unit (Option SeriesResult))

/-- The collection loop of `merge_results` in `MultiReader.fetch`
(readers.py lines 60-70): the `results` dict receives an entry only
when the node's fetch was a `FetchInProgress` (a failed wait is logged
and stored as `None`); a result returned directly is never stored.
After the loop, `None` entries are filtered out. -/
def collectResults (fetches : List FetchOutcome) : List SeriesResult :=
  fetches.filterMap fun f =>
    match f with
    | .direct _ => none
    | .inProgress (.ok r) => r
    | .inProgress (.error _) => none

/-- Embedding of `merge_results` in `MultiReader.fetch` (readers.py
lines 59-75): collect the awaited results, raise
`Exception("All sub-fetches failed")` when nothing is left, otherwise
`reduce(self.merge, results)`. Python 2 iterates `results.values()` in
dict order, which for the small consecutive int keys used here is key
order; we keep list order. -/
def multiFetch (fetches : List FetchOutcome) : Except Unit SeriesResult :=
  match collectResults fetches with
  | [] => Except.error ()
  | r :: rs => rs.foldlM merge r

/-- Embedding of `RRDReader.fetch` (readers.py lines 242-254) with the
backend's reply made explicit: resolve the datasource name to a column
(`list.index` raises `ValueError` when absent), `rows.pop()` the final
row (raising on an empty reply), then read that column of every
remaining row. Python builds the column values lazily in a generator;
we evaluate them at fetch time, which only moves the moment a too-short
row's `IndexError` appears. -/
def rrdReaderFetch (datasourceName : String) (timeInfo : TimeInfo)
    (columns : List String) (rows : List (List (Option Value))) :
    Except String (TimeInfo × List (Option Value)) := do
  let colIndex ← match columns.findIdx? (fun c => c == datasourceName) with
    | some i => Except.ok i
    | none => Except.error "ValueError: datasource name not found in columns"
  if rows.isEmpty then
    Except.error "IndexError: pop from empty list"
  else
    let values ← rows.dropLast.mapM (fun row =>
      match row.get? colIndex with
      | some v => Except.ok v
      | none => Except.error "IndexError: column index out of range")
    Except.ok (timeInfo, values)

/-!
Specification-side definitions. Each follows the words of a claim, to
be compared with the source embedding above.
-/

/-- Slot lookup exactly as claim C1 words it: the finer value is used
only when its index actually exists (is in range) and is not missing;
otherwise the coarser value at the coarser-aligned index, if that index
exists; otherwise missing. -/
def claimedSlotC1 (start1 step1 : Int) (values1 : List (Option Value))
    (start2 step2 : Int) (values2 : List (Option Value)) (t : Int) :
    Option Value :=
  let i1 := (t - start1).fdiv step1
  let v1 : Option Value :=
    if 0 ≤ i1 ∧ i1 < (values1.length : Int) then values1.getD i1.toNat none
    else none
  match v1 with
  | some v => some v
  | none =>
    let i2 := (t - start2).fdiv step2
    if 0 ≤ i2 ∧ i2 < (values2.length : Int) then values2.getD i2.toNat none
    else none

/-- The merge operator as claim C1 states it: finer result primary,
window `(min start, max end, finer step)`, and every slot filled per
`claimedSlotC1`. -/
def claimedMergeC1 (results1 results2 : SeriesResult) : SeriesResult :=
  let p := if results2.1.2.2 < results1.1.2.2 then (results2, results1)
           else (results1, results2)
  match p with
  | (((start1, end1, step1), values1), ((start2, end2, step2), values2)) =>
    let step := step1
    let start := min start1 start2
    let e := max end1 end2
    ((start, e, step),
      (List.range (numSlots start e step)).map
        (fun k : Nat => claimedSlotC1 start1 step1 values1 start2 step2 values2
          (start + (k : Int) * step)))

/-- Series lookup as the amended claim C1 words it: an index at or past
the end is a missing value; an index in range reads directly; a
negative index no smaller than `-length` wraps around Python-style to
`length + i`; anything below that fails the merge. -/
def amendedLookup (xs : List (Option Value)) (i : Int) :
    Except Unit (Option Value) :=
  if (xs.length : Int) ≤ i then .ok none
  else if h : 0 ≤ i ∧ i < (xs.length : Int) then .ok (xs.get ⟨i.toNat, by omega⟩)
  else if h2 : -(xs.length : Int) ≤ i ∧ i < 0 then
    .ok (xs.get ⟨((xs.length : Int) + i).toNat, by omega⟩)
  else .error ()

/-- Slot fill as the amended claim C1 words it: amended lookup on the
finer series first, falling back to the coarser series when the finer
value is missing or past the end. -/
def amendedSlotC1 (start1 step1 : Int) (values1 : List (Option Value))
    (start2 step2 : Int) (values2 : List (Option Value)) (t : Int) :
    Except Unit (Option Value) :=
  Except.bind (amendedLookup values1 ((t - start1).fdiv step1))
    (fun v1 =>
      match v1 with
      | some v => Except.ok (some v)
      | none => amendedLookup values2 ((t - start2).fdiv step2))

/-- The merge operator as the amended claim C1 states it. -/
def amendedMergeC1 (results1 results2 : SeriesResult) :
    Except Unit SeriesResult :=
  let p := if results2.1.2.2 < results1.1.2.2 then (results2, results1)
           else (results1, results2)
  match p with
  | (((start1, end1, step1), values1), ((start2, end2, step2), values2)) =>
    let step := step1
    let start := min start1 start2
    let e := max end1 end2
    do
      let values ← (List.range (numSlots start e step)).mapM
        (fun k : Nat => amendedSlotC1 start1 step1 values1 start2 step2 values2
          (start + (k : Int) * step))
      Except.ok ((start, e, step), values)

/-- First-occurrence deduplication, used to express claim C6's "grouped
by the slot their timestamp maps to" as a deterministic list of group
keys. -/
def dedupFirst (seen : List Int) : List Int → List Int
  | [] => []
  | a :: rest =>
    if a ∈ seen then dedupFirst seen rest
    else a :: dedupFirst (a :: seen) rest

/-- The cache-point groups as claim C6 words them: one group per
distinct aligned slot timestamp, holding the values of all points that
map to it, in point order. -/
def specGroupsC6 (step : Int) (pts : List (Int × Option Value)) :
    List (Int × List (Option Value)) :=
  (dedupFirst [] (pts.map (fun p => alignedSlot step p.1))).map
    (fun i => (i, (pts.filter (fun p => alignedSlot step p.1 == i)).map (·.2)))

/-- Claim C6's consolidated pairs: run `consolidate` once per group. -/
def specPairsC6 (f : String) (step : Int) (pts : List (Int × Option Value)) :
    Except String (List (Int × Option Value)) :=
  (specGroupsC6 step pts).mapM (fun g => do
    let v ← consolidate f g.2
    Except.ok (g.1, v))

/-!
Helper lemmas.
-/

lemma foldl_add_eq (l : List Value) (a : Value) :
    l.foldl (· + ·) a = a + l.sum := by
  induction l generalizing a with
  | nil => simp
  | cons h t ih => simp [ih, add_assoc]

lemma foldl_max_mem (t : List Value) (v : Value) : t.foldl max v ∈ v :: t := by
  induction t generalizing v with
  | nil => simp
  | cons h t ih =>
    rw [List.foldl_cons]
    have hmem := ih (max v h)
    rw [List.mem_cons] at hmem
    rcases hmem with hm | hm
    · rw [hm]
      rcases max_choice v h with hc | hc <;> rw [hc] <;> simp
    · simp [hm]

lemma foldl_max_le (t : List Value) (v : Value) :
    ∀ x ∈ v :: t, x ≤ t.foldl max v := by
  induction t generalizing v with
  | nil => simp
  | cons h t ih =>
    intro x hx
    rw [List.foldl_cons]
    rw [List.mem_cons] at hx
    rcases hx with rfl | hx
    · exact le_trans (le_max_left x h) (ih (max x h) (max x h) (by simp))
    rw [List.mem_cons] at hx
    rcases hx with rfl | hx
    · exact le_trans (le_max_right v x) (ih (max v x) (max v x) (by simp))
    · exact ih (max v h) x (List.mem_cons_of_mem _ hx)

lemma foldl_min_mem (t : List Value) (v : Value) : t.foldl min v ∈ v :: t := by
  induction t generalizing v with
  | nil => simp
  | cons h t ih =>
    rw [List.foldl_cons]
    have hmem := ih (min v h)
    rw [List.mem_cons] at hmem
    rcases hmem with hm | hm
    · rw [hm]
      rcases min_choice v h with hc | hc <;> rw [hc] <;> simp
    · simp [hm]

lemma foldl_min_le (t : List Value) (v : Value) :
    ∀ x ∈ v :: t, t.foldl min v ≤ x := by
  induction t generalizing v with
  | nil => simp
  | cons h t ih =>
    intro x hx
    rw [List.foldl_cons]
    rw [List.mem_cons] at hx
    rcases hx with rfl | hx
    · exact le_trans (ih (min x h) (min x h) (by simp)) (min_le_left x h)
    rw [List.mem_cons] at hx
    rcases hx with rfl | hx
    · exact le_trans (ih (min v x) (min v x) (by simp)) (min_le_right v x)
    · exact ih (min v h) x (List.mem_cons_of_mem _ hx)

lemma consolidate_of_empty (f : String) (vs : List (Option Value))
    (h : vs.filterMap id = []) : consolidate f vs = .ok none := by
  unfold consolidate
  rw [h]

lemma consolidate_sum_eq (vs : List (Option Value)) (v : Value) (t : List Value)
    (hv : vs.filterMap id = v :: t) :
    consolidate "sum" vs = .ok (some ((v :: t).sum)) := by
  unfold consolidate
  rw [hv]
  simp [foldl_add_eq]

lemma consolidate_average_eq (vs : List (Option Value)) (v : Value)
    (t : List Value) (hv : vs.filterMap id = v :: t) :
    consolidate "average" vs
      = .ok (some ((v :: t).sum / ((v :: t).length : Value))) := by
  unfold consolidate
  rw [hv]
  simp [foldl_add_eq]

lemma consolidate_max_eq (vs : List (Option Value)) (v : Value) (t : List Value)
    (hv : vs.filterMap id = v :: t) :
    consolidate "max" vs = .ok (some (t.foldl max v)) := by
  unfold consolidate
  rw [hv]
  simp

lemma consolidate_min_eq (vs : List (Option Value)) (v : Value) (t : List Value)
    (hv : vs.filterMap id = v :: t) :
    consolidate "min" vs = .ok (some (t.foldl min v)) := by
  unfold consolidate
  rw [hv]
  simp

lemma mapM_ok_length {α β : Type} (f : α → Except String β) :
    ∀ (l : List α) (res : List β), l.mapM f = Except.ok res →
      res.length = l.length := by
  have h : ∀ (l : List α) (res : List β), l.mapM' f = Except.ok res →
      res.length = l.length := by
    intro l
    induction l with
    | nil =>
      intro res h
      simp only [List.mapM', pure, Except.pure] at h
      cases h
      rfl
    | cons a t ih =>
      intro res h
      simp only [List.mapM'] at h
      cases hfa : f a with
      | error e => rw [hfa] at h; simp [Bind.bind, Except.bind] at h
      | ok b =>
        rw [hfa] at h
        cases hmt : t.mapM' f with
        | error e =>
          rw [hmt] at h; simp [Bind.bind, Except.bind] at h
        | ok bs =>
          rw [hmt] at h
          simp only [Bind.bind, Except.bind, pure, Except.pure] at h
          cases h
          simp [ih bs hmt]
  intro l res hres
  exact h l res (by rw [List.mapM'_eq_mapM]; exact hres)

lemma applyCachedValues_nil (start step : Int) (values : List (Option Value)) :
    applyCachedValues start step values [] = values := rfl

lemma applyCachedValues_cons (start step : Int) (values : List (Option Value))
    (p : Int × Option Value) (ps : List (Int × Option Value)) :
    applyCachedValues start step values (p :: ps)
      = applyCachedValues start step (cacheWriteStep start step values p) ps := rfl

lemma cacheWriteStep_length (start step : Int) (values : List (Option Value))
    (p : Int × Option Value) :
    (cacheWriteStep start step values p).length = values.length := by
  unfold cacheWriteStep
  split_ifs <;> simp

lemma applyCachedValues_length (start step : Int) :
    ∀ (ps : List (Int × Option Value)) (values : List (Option Value)),
      (applyCachedValues start step values ps).length = values.length := by
  intro ps
  induction ps with
  | nil => intro values; rfl
  | cons p ps ih =>
    intro values
    rw [applyCachedValues_cons]
    exact (ih _).trans (cacheWriteStep_length start step values p)

lemma applyCachedValues_get (start step : Int) (hstep : 0 < step) :
    ∀ (ps : List (Int × Option Value)) (values : List (Option Value)) (k : Nat)
      (w : Option Value), values.get? k = some w →
      (applyCachedValues start step values ps).get? k
        = some ((((ps.filter
              (fun p => (p.1 - start).fdiv step == (k : Int))).getLast?).map
            Prod.snd).getD w) := by
  intro ps
  induction ps with
  | nil =>
    intro values k w hw
    simpa [applyCachedValues_nil] using hw
  | cons p ps ih =>
    intro values k w hw
    have hklen : k < values.length := by
      by_contra hge
      rw [List.get?_eq_none.2 (by omega)] at hw
      exact Option.noConfusion hw
    rw [applyCachedValues_cons]
    have hstep0 : ¬ step = 0 := by omega
    by_cases hc : (p.1 - start).fdiv step = (k : Int)
    · -- the point hits slot k, which is in range: the write lands there
      have hset : cacheWriteStep start step values p = values.set k p.2 := by
        unfold cacheWriteStep
        rw [if_neg hstep0, hc]
        rw [if_neg (by omega), if_pos (by exact_mod_cast hklen)]
        simp
      have hw' : (cacheWriteStep start step values p).get? k = some p.2 := by
        rw [hset, List.get?_set_of_lt p.2 values hklen, if_pos rfl]
      rw [ih _ k p.2 hw']
      have hfilter : (p :: ps).filter
          (fun q => (q.1 - start).fdiv step == (k : Int))
        = p :: ps.filter (fun q => (q.1 - start).fdiv step == (k : Int)) := by
        rw [List.filter_cons, if_pos (by simpa using hc)]
      rw [hfilter]
      cases hps : ps.filter (fun q => (q.1 - start).fdiv step == (k : Int)) with
      | nil => simp
      | cons q qs =>
        rw [List.getLast?_cons_cons]
        rcases hlast : (q :: qs).getLast? with _ | x
        · exact absurd (List.getLast?_eq_none_iff.1 hlast) (by simp)
        · simp
    · -- the point misses slot k: slot k survives the write untouched
      have hw' : (cacheWriteStep start step values p).get? k = some w := by
        unfold cacheWriteStep
        rw [if_neg hstep0]
        by_cases h2 : (p.1 - start).fdiv step < 0
        · rw [if_pos h2]; exact hw
        rw [if_neg h2]
        by_cases h3 : (p.1 - start).fdiv step < (values.length : Int)
        · rw [if_pos h3, List.get?_set_of_lt p.2 values hklen, if_neg (by omega)]
          exact hw
        · rw [if_neg h3]; exact hw
      rw [ih _ k w hw']
      have hfilter : (p :: ps).filter
          (fun q => (q.1 - start).fdiv step == (k : Int))
        = ps.filter (fun q => (q.1 - start).fdiv step == (k : Int)) := by
        rw [List.filter_cons, if_neg (by simpa using hc)]
      rw [hfilter]

lemma mem_dedupFirst : ∀ (l seen : List Int) (a : Int),
    a ∈ dedupFirst seen l ↔ a ∈ l ∧ a ∉ seen := by
  intro l
  induction l with
  | nil => intro seen a; simp [dedupFirst]
  | cons b t ih =>
    intro seen a
    unfold dedupFirst
    by_cases hb : b ∈ seen
    · rw [if_pos hb, ih]
      constructor
      · rintro ⟨ha, hn⟩
        exact ⟨List.mem_cons_of_mem _ ha, hn⟩
      · rintro ⟨ha, hn⟩
        rcases List.mem_cons.1 ha with rfl | ha
        · exact absurd hb hn
        · exact ⟨ha, hn⟩
    · rw [if_neg hb]
      rw [List.mem_cons, ih]
      constructor
      · rintro (rfl | ⟨ha, hn⟩)
        · exact ⟨List.mem_cons_self a t, hb⟩
        · refine ⟨List.mem_cons_of_mem _ ha, fun hs => hn ?_⟩
          exact List.mem_cons_of_mem _ hs
      · rintro ⟨ha, hn⟩
        rcases List.mem_cons.1 ha with rfl | ha
        · exact Or.inl rfl
        · by_cases hab : a = b
          · exact Or.inl hab
          · refine Or.inr ⟨ha, fun hs => ?_⟩
            rcases List.mem_cons.1 hs with h | h
            · exact hab h
            · exact hn h

lemma nodup_dedupFirst : ∀ (l seen : List Int), (dedupFirst seen l).Nodup := by
  intro l
  induction l with
  | nil => intro seen; simp [dedupFirst]
  | cons b t ih =>
    intro seen
    unfold dedupFirst
    by_cases hb : b ∈ seen
    · rw [if_pos hb]; exact ih seen
    · rw [if_neg hb, List.nodup_cons]
      refine ⟨fun hmem => ?_, ih (b :: seen)⟩
      exact ((mem_dedupFirst t (b :: seen) b).1 hmem).2 (List.mem_cons_self b seen)

lemma dedupFirst_append_one : ∀ (l seen : List Int) (x : Int),
    dedupFirst seen (l ++ [x])
      = dedupFirst seen l ++ (if x ∈ seen ∨ x ∈ l then [] else [x]) := by
  intro l
  induction l with
  | nil =>
    intro seen x
    by_cases hx : x ∈ seen <;> simp [dedupFirst, hx]
  | cons b t ih =>
    intro seen x
    rw [List.cons_append]
    unfold dedupFirst
    by_cases hb : b ∈ seen
    · rw [if_pos hb, if_pos hb, ih]
      congr 1
      apply if_congr ?_ rfl rfl
      constructor
      · rintro (h | h)
        · exact Or.inl h
        · exact Or.inr (List.mem_cons_of_mem _ h)
      · rintro (h | h)
        · exact Or.inl h
        · rcases List.mem_cons.1 h with rfl | h
          · exact Or.inl hb
          · exact Or.inr h
    · rw [if_neg hb, if_neg hb, ih, List.cons_append]
      congr 2
      apply if_congr ?_ rfl rfl
      rw [List.mem_cons, List.mem_cons]
      tauto

lemma addPoint_not_mem : ∀ (L : List (Int × List (Option Value))) (k : Int)
    (v : Option Value), (∀ q ∈ L, q.1 ≠ k) →
    addPoint L k v = L ++ [(k, [v])] := by
  intro L
  induction L with
  | nil => intro k v _; rfl
  | cons q rest ih =>
    intro k v h
    obtain ⟨k1, vs⟩ := q
    unfold addPoint
    rw [if_neg (h (k1, vs) (List.mem_cons_self _ _))]
    rw [List.cons_append]
    congr 1
    exact ih k v (fun q hq => h q (List.mem_cons_of_mem _ hq))

lemma addPoint_mem_nodup : ∀ (D : List Int) (g : Int → List (Option Value))
    (k : Int) (v : Option Value), D.Nodup → k ∈ D →
    addPoint (D.map (fun i => (i, g i))) k v
      = D.map (fun i => (i, g i ++ if i = k then [v] else [])) := by
  intro D
  induction D with
  | nil => intro g k v _ hmem; exact absurd hmem (List.not_mem_nil k)
  | cons b Drest ih =>
    intro g k v hnodup hmem
    rw [List.map_cons, List.map_cons]
    unfold addPoint
    by_cases hbk : b = k
    · rw [if_pos hbk]
      subst hbk
      have hnot : b ∉ Drest := (List.nodup_cons.1 hnodup).1
      congr 1
      · simp
      · apply List.map_congr_left
        intro i hi
        have hne : ¬ i = b := fun h => hnot (h ▸ hi)
        simp [hne]
    · rw [if_neg hbk]
      have hmem' : k ∈ Drest := by
        rcases List.mem_cons.1 hmem with rfl | h
        · exact absurd rfl hbk
        · exact h
      rw [ih g k v (List.nodup_cons.1 hnodup).2 hmem']
      congr 1
      simp [hbk]

lemma groupPoints_eq_specGroups (step : Int) :
    ∀ pts : List (Int × Option Value),
      groupPoints step pts = specGroupsC6 step pts := by
  intro pts
  induction pts using List.reverseRecOn with
  | nil => rfl
  | append_singleton pts p ih =>
    have hgroup : groupPoints step (pts ++ [p])
        = addPoint (groupPoints step pts) (alignedSlot step p.1) p.2 := by
      unfold groupPoints
      rw [List.foldl_append, List.foldl_cons, List.foldl_nil]
    rw [hgroup, ih]
    unfold specGroupsC6
    rw [List.map_append, List.map_singleton, dedupFirst_append_one]
    have hfilterapp : ∀ i : Int,
        ((pts ++ [p]).filter (fun q => alignedSlot step q.1 == i)).map Prod.snd
          = (pts.filter (fun q => alignedSlot step q.1 == i)).map Prod.snd
            ++ (if alignedSlot step p.1 = i then [p.2] else []) := by
      intro i
      rw [List.filter_append, List.map_append]
      congr 1
      by_cases hpi : alignedSlot step p.1 = i
      · rw [List.filter_singleton, if_pos hpi]
        simp [hpi]
      · rw [List.filter_singleton, if_neg hpi]
        rw [beq_eq_false_iff_ne.2 hpi]
        rfl
    by_cases hK : alignedSlot step p.1 ∈ pts.map (fun q => alignedSlot step q.1)
    · rw [if_pos (Or.inr hK), List.append_nil]
      rw [addPoint_mem_nodup _ _ _ _ (nodup_dedupFirst _ [])
        ((mem_dedupFirst _ [] _).2 ⟨hK, List.not_mem_nil _⟩)]
      apply List.map_congr_left
      intro i _
      rw [hfilterapp i]
      have : (i = alignedSlot step p.1) ↔ (alignedSlot step p.1 = i) := eq_comm
      by_cases hi : alignedSlot step p.1 = i
      · rw [if_pos hi, if_pos (this.2 hi)]
      · rw [if_neg hi, if_neg (fun h => hi (this.1 h))]
    · rw [if_neg (by
        rintro (h | h)
        · exact List.not_mem_nil _ h
        · exact hK h)]
      rw [addPoint_not_mem _ _ _ (by
        intro q hq
        rw [List.mem_map] at hq
        obtain ⟨i, hiD, hqi⟩ := hq
        have hq1 : q.1 = i := by rw [← hqi]
        have hiK := ((mem_dedupFirst _ [] i).1 hiD).1
        rw [hq1]
        intro hcontra
        rw [hcontra] at hiK
        exact hK hiK)]
      rw [List.map_append, List.map_singleton]
      congr 1
      · apply List.map_congr_left
        intro i hiD
        have hiK := ((mem_dedupFirst _ [] i).1 hiD).1
        have hne : ¬ alignedSlot step p.1 = i := by
          intro hcontra
          rw [hcontra] at hK
          exact hK hiK
        rw [hfilterapp i, if_neg hne, List.append_nil]
      · have hnil : pts.filter
            (fun q => alignedSlot step q.1 == alignedSlot step p.1) = [] := by
          rw [List.filter_eq_nil_iff]
          intro q hq
          simp only [beq_iff_eq]
          intro hcontra
          apply hK
          rw [List.mem_map]
          exact ⟨q, hq, hcontra⟩
        rw [hfilterapp (alignedSlot step p.1), hnil, if_pos rfl]
        rfl

/-!
Claim theorems.
-/

/-- C7: `consolidate` discards missing values before reducing; for the
recognized names `sum`, `average`, `max`, `min` it returns the
corresponding reduction of the remaining values (so
`consolidate("average", [2,4,6]) = 4`); it returns missing when all
inputs are missing (so `consolidate("sum", [])` is missing); and an
unrecognized name such as `"bogus"` on `[1]` fails with the invalid
consolidation function error. -/
theorem consolidate_c7 :
    (∀ f vs, consolidate f vs = consolidate f ((vs.filterMap id).map some))
    ∧ (∀ f vs, vs.filterMap id = [] → consolidate f vs = Except.ok none)
    ∧ (∀ vs : List (Option Value), vs.filterMap id ≠ [] →
        consolidate "sum" vs = Except.ok (some (vs.filterMap id).sum)
        ∧ consolidate "average" vs
            = Except.ok (some ((vs.filterMap id).sum
                / ((vs.filterMap id).length : Value)))
        ∧ (∃ m, consolidate "max" vs = Except.ok (some m)
              ∧ m ∈ vs.filterMap id ∧ ∀ x ∈ vs.filterMap id, x ≤ m)
        ∧ (∃ m, consolidate "min" vs = Except.ok (some m)
              ∧ m ∈ vs.filterMap id ∧ ∀ x ∈ vs.filterMap id, m ≤ x))
    ∧ consolidate "average" [some 2, some 4, some 6] = Except.ok (some 4)
    ∧ consolidate "sum" [] = Except.ok none
    ∧ consolidate "bogus" [some 1]
        = Except.error ("Invalid consolidation function: bogus") := by
  refine ⟨?_, ?_, ?_, ?_, rfl, rfl⟩
  · intro f vs
    unfold consolidate
    rw [show ((vs.filterMap id).map some).filterMap id = vs.filterMap id by simp]
  · intro f vs h
    exact consolidate_of_empty f vs h
  · intro vs hne
    rcases hv : vs.filterMap id with _ | ⟨v, t⟩
    · exact absurd hv hne
    exact ⟨by rw [consolidate_sum_eq vs v t hv],
           by rw [consolidate_average_eq vs v t hv],
           ⟨t.foldl max v, consolidate_max_eq vs v t hv,
             foldl_max_mem t v, foldl_max_le t v⟩,
           ⟨t.foldl min v, consolidate_min_eq vs v t hv,
             foldl_min_mem t v, foldl_min_le t v⟩⟩
  · rw [consolidate_average_eq [some 2, some 4, some 6] 2 [4, 6] rfl]
    norm_num

theorem consolidate_c7_witness :
    consolidate "sum" [some 3, none, some 1] = consolidate "sum" [some 3, some 1]
    ∧ ∃ m, consolidate "max" [some 3, none, some 1] = Except.ok (some m)
        ∧ m ∈ ([3, 1] : List Value) := by
  refine ⟨consolidate_c7.1 "sum" [some 3, none, some 1], ?_⟩
  obtain ⟨m, hm, hmem, -⟩ :=
    (consolidate_c7.2.2.1 [some 3, none, some 1] (by decide)).2.2.1
  exact ⟨m, hm, hmem⟩

/-- C10 (implicit): `consolidate` validates the function name only after
discarding missing values, so an unrecognized name applied to an
all-missing (or empty) input returns missing rather than raising; the
unknown-name error can only fire when at least one non-missing value is
present. -/
theorem consolidate_c10 :
    (∀ f vs, vs.filterMap id = [] → consolidate f vs = Except.ok none)
    ∧ consolidate "bogus" [] = Except.ok none
    ∧ consolidate "bogus" [none, none] = Except.ok none
    ∧ (∀ f vs msg, consolidate f vs = Except.error msg →
        vs.filterMap id ≠ []) := by
  refine ⟨fun f vs h => consolidate_of_empty f vs h, rfl, rfl, ?_⟩
  intro f vs msg h hnil
  rw [consolidate_of_empty f vs hnil] at h
  exact Except.noConfusion h

theorem consolidate_c10_witness :
    consolidate "bogus" [none] = Except.ok none
    ∧ ([some 1] : List (Option Value)).filterMap id ≠ [] := by
  refine ⟨consolidate_c10.1 "bogus" [none] rfl, ?_⟩
  exact consolidate_c10.2.2.2 "bogus" [some 1]
    ("Invalid consolidation function: bogus") rfl

/-- C2 (code bug): the collection loop of `merge_results` stores an
entry in the `results` dict only for `FetchInProgress` fetches, so a
node result returned directly never participates in the reduction: a
multi-reader fetch whose single node returns data directly raises
"All sub-fetches failed" instead of merging and returning that data. -/
theorem multiFetch_c2_direct_dropped :
    multiFetch [FetchOutcome.direct (some ((0, 60, 60), [some 1]))]
      = Except.error () := rfl

/-- C3 (code bug): the all-sources-failed error is indeed raised when
every node's fetch failed its await or produced no data, but it is not
raised exactly then: a node whose result came back directly is dropped
by the collection loop, so the fetch raises even though a source
survived with data. -/
theorem multiFetch_c3 :
    (∀ fetches : List FetchOutcome,
        (∀ f ∈ fetches, f = FetchOutcome.inProgress (Except.error ())
            ∨ f = FetchOutcome.inProgress (Except.ok none)
            ∨ f = FetchOutcome.direct none) →
        multiFetch fetches = Except.error ())
    ∧ multiFetch [FetchOutcome.inProgress (Except.error ()),
                  FetchOutcome.direct (some ((0, 120, 60), [some 5, some 5]))]
      = Except.error () := by
  refine ⟨?_, rfl⟩
  intro fetches hall
  have hempty : collectResults fetches = [] := by
    rw [collectResults, List.filterMap_eq_nil_iff]
    intro f hf
    rcases hall f hf with rfl | rfl | rfl <;> rfl
  rw [multiFetch, hempty]

theorem multiFetch_c3_witness :
    multiFetch [FetchOutcome.inProgress (Except.error ()),
                FetchOutcome.direct none] = Except.error () := by
  refine multiFetch_c3.1 _ ?_
  intro f hf
  rw [List.mem_cons] at hf
  rcases hf with rfl | hf
  · exact Or.inl rfl
  rw [List.mem_cons] at hf
  rcases hf with rfl | hf
  · exact Or.inr (Or.inr rfl)
  · exact absurd hf (List.not_mem_nil f)

/-- C8: for the cache-querying fixed-step readers (Ceres and Whisper), a
failure of the write-back cache query is caught and treated as an empty
cache contribution, and the fetch still returns the archive-derived
series unchanged instead of propagating the cache failure. -/
theorem readers_c8_cache_failure_degrades (s e step : Int)
    (values : List (Option Value)) (func : String) :
    ceresReaderFetch ((s, e, step), values) (Except.error ())
        = Except.ok ((s, e, step), values)
    ∧ whisperReaderFetch (some ((s, e, step), values)) func (Except.error ())
        = Except.ok (some ((s, e, step), values)) :=
  ⟨rfl, rfl⟩

/-- C9: the round-robin reader's fetch never includes the final raw row
returned by the backend in the values it returns: the result is
independent of that row's content, and on success it holds exactly one
value per non-final row. (With zero rows, `rows.pop()` raises, so no
values are returned at all.) -/
theorem rrd_c9_drops_final_row (name : String) (ti : TimeInfo)
    (columns : List String) (rows : List (List (Option Value)))
    (lastA lastB : List (Option Value)) :
    rrdReaderFetch name ti columns (rows ++ [lastA])
        = rrdReaderFetch name ti columns (rows ++ [lastB])
    ∧ (∀ res, rrdReaderFetch name ti columns (rows ++ [lastA]) = Except.ok res →
        res.2.length = rows.length) := by
  have hempty : ∀ c : List (Option Value), (rows ++ [c]).isEmpty = false := by
    intro c; cases rows <;> rfl
  cases hidx : columns.findIdx? (fun c => c == name) with
  | none =>
    constructor
    · simp [rrdReaderFetch, hidx, Bind.bind, Except.bind]
    · intro res h
      simp [rrdReaderFetch, hidx, Bind.bind, Except.bind] at h
  | some ci =>
    have hshape : ∀ c : List (Option Value),
        rrdReaderFetch name ti columns (rows ++ [c])
          = (do
              let values ← rows.mapM (fun row =>
                match row.get? ci with
                | some v => Except.ok v
                | none => Except.error "IndexError: column index out of range")
              Except.ok (ti, values)) := by
      intro c
      simp [rrdReaderFetch, hidx, hempty c, List.dropLast_concat, Bind.bind, Except.bind]
    constructor
    · rw [hshape lastA, hshape lastB]
    · intro res h
      rw [hshape lastA] at h
      cases hmap : rows.mapM (fun row =>
          match row.get? ci with
          | some v => Except.ok v
          | none =>
            Except.error (ε := String) "IndexError: column index out of range")
        with
      | error e => rw [hmap] at h; simp [Bind.bind, Except.bind] at h
      | ok vals =>
        rw [hmap] at h
        simp only [Bind.bind, Except.bind] at h
        cases h
        simpa using mapM_ok_length _ rows vals hmap

theorem rrd_c9_witness :
    rrdReaderFetch "ds" (0, 20, 10) ["ds"] [[some 1], [some 2]]
        = rrdReaderFetch "ds" (0, 20, 10) ["ds"] [[some 1], [some 7]]
    ∧ (((0, 20, 10), [some 1]) : TimeInfo × List (Option Value)).2.length = 1 := by
  have h := rrd_c9_drops_final_row "ds" (0, 20, 10) ["ds"] [[some 1]]
    [some 2] [some 7]
  exact ⟨h.1, h.2 ((0, 20, 10), [some 1]) rfl⟩

/-- C4: in direct mode (no consolidation function) `merge_with_cache`
buckets each cache point to slot `floor((timestamp - start) / step)`;
a slot that is in range (index at least 0 and below the series length)
ends up holding the value of the last point in iteration order that
maps to it (cache wins over archive), and every other slot keeps its
archive value. -/
theorem merge_with_cache_c4_direct (pts : List (Int × Option Value))
    (start step : Int) (values : List (Option Value)) (hstep : 0 < step) :
    ∃ res, merge_with_cache pts start step values none = Except.ok res
      ∧ res.length = values.length
      ∧ ∀ k (hk : k < values.length),
          res.get? k = some
            ((((pts.filter
                (fun p => (p.1 - start).fdiv step == (k : Int))).getLast?).map
              Prod.snd).getD (values.get ⟨k, hk⟩)) := by
  refine ⟨applyCachedValues start step values pts, rfl,
    applyCachedValues_length start step pts values, ?_⟩
  intro k hk
  exact applyCachedValues_get start step hstep pts values k (values.get ⟨k, hk⟩)
    (List.get?_eq_get hk)

theorem merge_with_cache_c4_witness :
    ∃ res, merge_with_cache [((0 : Int), some 1)] 0 60
        [none, none, none, none, none] none = Except.ok res
      ∧ res.length = 5 ∧ res.get? 0 = some (some 1) ∧ res.get? 1 = some none := by
  obtain ⟨res, hok, hlen, hget⟩ :=
    merge_with_cache_c4_direct [((0 : Int), some 1)] 0 60
      [none, none, none, none, none] (by norm_num)
  refine ⟨res, hok, by simpa using hlen, ?_, ?_⟩
  · exact (hget 0 (by norm_num)).trans rfl
  · exact (hget 1 (by norm_num)).trans rfl

/-- C5: `merge_with_cache` never fails on out-of-window points and
always preserves the series length: direct mode always succeeds with a
series of the input length; any successful run (either mode) returns
the input length; and a point whose slot index is negative or at/past
the end of the series is dropped without mutating any slot. -/
theorem merge_with_cache_c5_safety :
    (∀ (pts : List (Int × Option Value)) (start step : Int)
        (values : List (Option Value)), ∃ res,
        merge_with_cache pts start step values none = Except.ok res
        ∧ res.length = values.length)
    ∧ (∀ (pts : List (Int × Option Value)) (start step : Int)
        (values : List (Option Value)) (func : Option String) res,
        merge_with_cache pts start step values func = Except.ok res →
        res.length = values.length)
    ∧ (∀ (start step : Int) (values : List (Option Value)) (t : Int)
        (v : Option Value) (pre post : List (Int × Option Value)),
        ((t - start).fdiv step < 0
          ∨ (values.length : Int) ≤ (t - start).fdiv step) →
        merge_with_cache (pre ++ (t, v) :: post) start step values none
          = merge_with_cache (pre ++ post) start step values none) := by
  refine ⟨?_, ?_, ?_⟩
  · intro pts start step values
    exact ⟨applyCachedValues start step values pts, rfl,
      applyCachedValues_length start step pts values⟩
  · intro pts start step values func res h
    cases func with
    | none =>
      simp only [merge_with_cache, Bind.bind, Except.bind] at h
      cases h
      exact applyCachedValues_length start step pts values
    | some f =>
      simp only [merge_with_cache] at h
      by_cases hz : pts ≠ [] ∧ step = 0
      · rw [if_pos hz] at h
        simp [Bind.bind, Except.bind] at h
      · rw [if_neg hz] at h
        cases hmap : (groupPoints step pts).mapM
            (fun g => do
              let v ← consolidate f g.2
              Except.ok (ε := String) (g.1, v)) with
        | error e => rw [hmap] at h; simp [Bind.bind, Except.bind] at h
        | ok cs =>
          rw [hmap] at h
          simp only [Bind.bind, Except.bind] at h
          cases h
          exact applyCachedValues_length start step cs values
  · intro start step values t v pre post hout
    have hmid : ∀ vs : List (Option Value), vs.length = values.length →
        cacheWriteStep start step vs (t, v) = vs := by
      intro vs hlen
      unfold cacheWriteStep
      dsimp only
      by_cases h1 : step = 0
      · rw [if_pos h1]
      rw [if_neg h1]
      by_cases h2 : (t - start).fdiv step < 0
      · rw [if_pos h2]
      rw [if_neg h2]
      rw [if_neg (by rw [hlen]; omega)]
    simp only [merge_with_cache, Bind.bind, Except.bind]
    congr 1
    unfold applyCachedValues
    rw [List.foldl_append, List.foldl_append, List.foldl_cons]
    rw [hmid (List.foldl (cacheWriteStep start step) values pre)
      (applyCachedValues_length start step pre values)]

theorem merge_with_cache_c5_witness :
    merge_with_cache [((-60 : Int), some 1)] 0 60
        [none, none, none, none, none] none
      = merge_with_cache [] 0 60 [none, none, none, none, none] none := by
  have h := merge_with_cache_c5_safety.2.2 0 60 [none, none, none, none, none]
    (-60) (some 1) [] [] (Or.inl (by decide))
  simpa using h

/-- C6: in consolidated mode (an aggregation function is given)
`merge_with_cache` first groups all cache points by the aligned slot
timestamp `timestamp - (timestamp mod step)`, runs `consolidate` once
per group to produce a single (aligned timestamp, value) pair, and then
applies those pairs to the series exactly as in direct mode (the same
`applyCachedValues` loop that direct mode uses on raw points). -/
theorem merge_with_cache_c6_consolidated (pts : List (Int × Option Value))
    (start step : Int) (values : List (Option Value)) (f : String)
    (hstep : 0 < step) :
    merge_with_cache pts start step values (some f)
      = (do
          let pairs ← specPairsC6 f step pts
          Except.ok (applyCachedValues start step values pairs)) := by
  unfold merge_with_cache specPairsC6
  dsimp only
  rw [if_neg (by rintro ⟨-, h⟩; omega)]
  rw [groupPoints_eq_specGroups]

theorem merge_with_cache_c6_witness :
    merge_with_cache [((0 : Int), some 1), ((30 : Int), some 3)] 0 60
        [none, none] (some "sum")
      = (do
          let pairs ← specPairsC6 "sum" 60 [((0 : Int), some 1), ((30 : Int), some 3)]
          Except.ok (applyCachedValues 0 60 [none, none] pairs)) :=
  merge_with_cache_c6_consolidated [((0 : Int), some 1), ((30 : Int), some 3)]
    0 60 [none, none] "sum" (by norm_num)

lemma lookup_eq (xs : List (Option Value)) (i : Int) :
    (if (xs.length : Int) > i then pyGet xs i else Except.ok none)
      = amendedLookup xs i := by
  unfold pyGet amendedLookup
  by_cases hge : (xs.length : Int) ≤ i
  · rw [if_neg (by omega), if_pos hge]
  · rw [if_pos (by omega), if_neg hge]
    by_cases hi : i < 0
    · rw [if_pos hi]
      by_cases hwrap : -(xs.length : Int) ≤ i
      · rw [dif_pos (show 0 ≤ (xs.length : Int) + i
              ∧ (xs.length : Int) + i < (xs.length : Int) from ⟨by omega, by omega⟩),
            dif_neg (show ¬(0 ≤ i ∧ i < (xs.length : Int)) from by omega),
            dif_pos (show -(xs.length : Int) ≤ i ∧ i < 0 from ⟨hwrap, hi⟩)]
      · rw [dif_neg (show ¬(0 ≤ (xs.length : Int) + i
              ∧ (xs.length : Int) + i < (xs.length : Int)) from by omega),
            dif_neg (show ¬(0 ≤ i ∧ i < (xs.length : Int)) from by omega),
            dif_neg (show ¬(-(xs.length : Int) ≤ i ∧ i < 0) from by omega)]
    · rw [if_neg hi,
          dif_pos (show 0 ≤ i ∧ i < (xs.length : Int) from ⟨by omega, by omega⟩)]
      rw [dif_pos (show 0 ≤ i ∧ i < (xs.length : Int) from ⟨by omega, by omega⟩)]

lemma mergeSlot_eq_amended (start1 step1 : Int) (values1 : List (Option Value))
    (start2 step2 : Int) (values2 : List (Option Value)) (t : Int) :
    mergeSlot start1 step1 values1 start2 step2 values2 t
      = amendedSlotC1 start1 step1 values1 start2 step2 values2 t := by
  unfold mergeSlot amendedSlotC1
  rw [lookup_eq values1 ((t - start1).fdiv step1),
    lookup_eq values2 ((t - start2).fdiv step2)]
  cases hl1 : amendedLookup values1 ((t - start1).fdiv step1) with
  | error e => rfl
  | ok v =>
    cases v with
    | some x => rfl
    | none =>
      show Except.bind (amendedLookup values2 ((t - start2).fdiv step2))
          (fun v2 => Except.ok v2)
        = amendedLookup values2 ((t - start2).fdiv step2)
      cases amendedLookup values2 ((t - start2).fdiv step2) with
      | error e => rfl
      | ok w => rfl

lemma mapM_map_except {α β γ : Type} (g : α → β) (f : β → Except Unit γ) :
    ∀ l : List α, (l.map g).mapM f = l.mapM (fun a => f (g a)) := by
  intro l
  induction l with
  | nil => rfl
  | cons a t ih => rw [List.map_cons, List.mapM_cons, List.mapM_cons, ih]

lemma mergeLoop_eq_range (slot : Int → Except Unit (Option Value)) (step : Int) :
    ∀ (n : Nat) (t : Int),
      mergeLoop slot step n t
        = (List.range n).mapM (fun k : Nat => slot (t + (k : Int) * step)) := by
  intro n
  induction n with
  | zero => intro t; rfl
  | succ n ih =>
    intro t
    have hstep1 : mergeLoop slot step (n + 1) t
        = Except.bind (slot t) (fun v =>
            Except.bind (mergeLoop slot step n (t + step))
              (fun rest => Except.ok (v :: rest))) := rfl
    rw [hstep1, ih (t + step), List.range_succ_eq_map, List.mapM_cons,
      mapM_map_except]
    have harg : (fun k : Nat => slot (t + ((k.succ : Nat) : Int) * step))
        = (fun k : Nat => slot ((t + step) + (k : Int) * step)) := by
      funext k
      congr 1
      push_cast
      ring
    rw [harg]
    have ht : t + ((0 : Nat) : Int) * step = t := by push_cast; ring
    rw [ht]
    rfl

/-- C1 counterexample: with a finer series starting later than the
coarser one, the Python merge wraps the negative finer index around to
the end of the finer list instead of falling back to the coarser
series. Finer source: window (60, 120, 30) with values [1, 2]; coarser
source: window (0, 120, 60) with values [9, 9]. The claim requires
slots t = 0 and t = 30 to fall back to the coarser value 9; the code
returns the finer values 1 and 2 there. -/
theorem merge_c1_counterexample :
    merge ((60, 120, 30), [some 1, some 2]) ((0, 120, 60), [some 9, some 9])
      = Except.ok ((0, 120, 30), [some 1, some 2, some 1, some 2])
    ∧ claimedMergeC1 ((60, 120, 30), [some 1, some 2])
        ((0, 120, 60), [some 9, some 9])
      = ((0, 120, 30), [some 9, some 9, some 1, some 2])
    ∧ merge ((60, 120, 30), [some 1, some 2]) ((0, 120, 60), [some 9, some 9])
      ≠ Except.ok (claimedMergeC1 ((60, 120, 30), [some 1, some 2])
          ((0, 120, 60), [some 9, some 9])) := by
  refine ⟨rfl, rfl, ?_⟩
  intro h
  rw [show claimedMergeC1 ((60, 120, 30), [some 1, some 2])
      ((0, 120, 60), [some 9, some 9])
    = ((0, 120, 30), [some 9, some 9, some 1, some 2]) from rfl] at h
  rw [show merge ((60, 120, 30), [some 1, some 2]) ((0, 120, 60), [some 9, some 9])
    = Except.ok ((0, 120, 30), [some 1, some 2, some 1, some 2]) from rfl] at h
  norm_num at h

/-- C1 (amended): the merge operator swaps so the strictly finer result
is primary, spans `(min start, max end, finer step)`, and fills every
slot t by Python indexing: with `i1 = floor((t - start1) / step1)`, an
index at or past the finer length is missing; an in-range index reads
the finer series; a negative index no smaller than `-len1` wraps around
to `len1 + i1`; anything below that fails the merge; when the finer
value is missing the coarser series is read the same way at
`i2 = floor((t - start2) / step2)`. -/
theorem merge_c1_amended (r1 r2 : SeriesResult)
    (_hstep1 : 0 < r1.1.2.2) (_hstep2 : 0 < r2.1.2.2) :
    merge r1 r2 = amendedMergeC1 r1 r2 := by
  clear _hstep1 _hstep2
  obtain ⟨⟨s1, e1, st1⟩, v1⟩ := r1
  obtain ⟨⟨s2, e2, st2⟩, v2⟩ := r2
  unfold merge amendedMergeC1
  by_cases hswap : st2 < st1
  · rw [if_pos hswap]
    dsimp only
    rw [mergeLoop_eq_range]
    have hfun : (fun k : Nat => mergeSlot s2 st2 v2 s1 st1 v1
        (min s2 s1 + (k : Int) * st2))
      = (fun k : Nat => amendedSlotC1 s2 st2 v2 s1 st1 v1
        (min s2 s1 + (k : Int) * st2)) := by
      funext k
      exact mergeSlot_eq_amended s2 st2 v2 s1 st1 v1 (min s2 s1 + (k : Int) * st2)
    rw [hfun]
  · rw [if_neg hswap]
    dsimp only
    rw [mergeLoop_eq_range]
    have hfun : (fun k : Nat => mergeSlot s1 st1 v1 s2 st2 v2
        (min s1 s2 + (k : Int) * st1))
      = (fun k : Nat => amendedSlotC1 s1 st1 v1 s2 st2 v2
        (min s1 s2 + (k : Int) * st1)) := by
      funext k
      exact mergeSlot_eq_amended s1 st1 v1 s2 st2 v2 (min s1 s2 + (k : Int) * st1)
    rw [hfun]

theorem merge_c1_amended_witness :
    (0 : Int) < 30 ∧ (0 : Int) < 60
    ∧ merge ((60, 120, 30), [some 1, some 2]) ((0, 120, 60), [some 9, none])
      = amendedMergeC1 ((60, 120, 30), [some 1, some 2]) ((0, 120, 60), [some 9, none])
    ∧ amendedMergeC1 ((60, 120, 30), [some 1, some 2]) ((0, 120, 60), [some 9, none])
      = Except.ok ((0, 120, 30), [some 1, some 2, some 1, some 2]) :=
  ⟨by decide, by decide,
   merge_c1_amended ((60, 120, 30), [some 1, some 2]) ((0, 120, 60), [some 9, none])
     (by decide) (by decide), rfl⟩

end GraphiteReaders
